import Mathlib

/-!
# Sparse-file helpers of gocryptfs (`internal/fusefrontend/file_holes.go`)

A shallow embedding of `File.writePadHole`, `File.zeroPad` and `File.SeekData`.

* Go's `uint64` / `int64` values are natural numbers / integers; the conversions
  `uint64(x)` and `int64(x)` wrap explicitly modulo `2^64`.
* The collaborators that live outside `file_holes.go` (the backing file
  descriptor, the encrypted write path `doWrite`, `fuse.ToStatus`, the host
  `lseek`) are fields of the records `File` and `Runtime`; the backing store is
  an explicit state of type `σ` that is threaded through every call.
* Every call of `doWrite` and of `syscall.Seek` is recorded in the outcome, so
  that "no nested write is issued" is a statement about that record.
* A Go runtime panic (integer division by zero) is the result `none`.
* The logging calls (`tlog.Warn.Printf`, `tlog.Debug.Printf`) have no effect on
  the results and are left out.
-/

namespace fusefrontend

/-! ## Machine integers -/

/-- Go conversion `uint64(x)` of an `int64` value: two's-complement wrap. -/
def uint64 (x : Int) : Nat := (x % 2 ^ 64).toNat

/-- Go conversion `int64(x)` of a `uint64` value: two's-complement wrap. -/
def int64 (x : Nat) : Int :=
  if x % 2 ^ 64 < 2 ^ 63 then ((x % 2 ^ 64 : Nat) : Int) else ((x % 2 ^ 64 : Nat) : Int) - 2 ^ 64

/-! ## Statuses and errors -/

/-- Values of `fuse.Status` (an `int32` errno code). -/
abbrev Status := Int

/-- The status `fuse.OK`. -/
def OK : Status := 0

/-- Values of Go's `error` returned by the host (errno codes). -/
abbrev Errno := Nat

/-- One byte of a buffer. -/
abbrev Byte := Fin 256

/-! ## Size Mapper (`contentEnc`)

The content encoder lives in another package; its three methods used here
follow the Size Mapper contract. They are total: at a block size of zero Lean's
division gives block number `0` for every offset, so that `writePadHole` then
never reaches the padding branch. -/

/-- Modelled from the spec: the type of `f.contentEnc` is missing from the
sources. It holds the block parameters of a file: plaintext block size `PBS`,
per-block overhead (so that `CBS = PBS + overhead`) and header length `H`. -/
structure ContentEnc where
  plainBS : Nat
  overhead : Nat
  headerLen : Nat
  deriving DecidableEq, Repr

/-- Modelled from the spec: `contentEnc.PlainBS()` is missing from the sources;
it returns the constant plaintext block size `PBS`. -/
def ContentEnc.PlainBS (ce : ContentEnc) : Nat := ce.plainBS

/-- Modelled from the spec: the ciphertext block size, `CBS = PBS + overhead`. -/
def ContentEnc.CipherBS (ce : ContentEnc) : Nat := ce.plainBS + ce.overhead

/-- Modelled from the spec: `contentEnc.PlainOffToBlockNo` is missing from the
sources; `PlainOffToBlockNo(off) = floor(off / PBS)`. -/
def ContentEnc.PlainOffToBlockNo (ce : ContentEnc) (off : Nat) : Nat := off / ce.plainBS

/-- Modelled from the spec: `contentEnc.CipherSizeToPlainSize` is missing from
the sources. With `n` whole ciphertext blocks after the header and a trailing
block of `r` bytes, `plainSize = n * PBS + max (r - overhead) 0`; a size inside
the header (and the empty file) gives `0`. -/
def ContentEnc.CipherSizeToPlainSize (ce : ContentEnc) (cipherSize : Nat) : Nat :=
  if cipherSize < ce.headerLen then 0
  else
    let body := cipherSize - ce.headerLen
    let n := body / ce.CipherBS
    let r := body % ce.CipherBS
    n * ce.plainBS + (r - ce.overhead)

/-! ## The file handle and its collaborators -/

/-- One recorded call `doWrite(buf, off)`. -/
structure WriteCall where
  buf : List Byte
  off : Int
  deriving DecidableEq, Repr

/-- The part of `*File` that `file_holes.go` uses. `σ` is the state of the
backing store.
* `Stat s` is `f.fd.Stat()`: an error, or the `int64` value of `fi.Size()`;
* `doWrite s buf off` is the encrypted write path: the `(written, status)` pair
  it returns and the store afterwards;
* `ToStatus` is `fuse.ToStatus`;
* `intFd` is `f.intFd()`. -/
structure File (σ : Type) where
  contentEnc : ContentEnc
  Stat : σ → Except Errno Int
  doWrite : σ → List Byte → Int → (Nat × Status) × σ
  ToStatus : Errno → Status
  intFd : Int

/-- What a call of `writePadHole` / `zeroPad` leaves behind: the returned
status, the nested `doWrite` calls issued (in order) and the backing store. -/
structure Outcome (σ : Type) where
  status : Status
  writes : List WriteCall
  file : σ
  deriving DecidableEq, Repr

/-- `func (f *File) zeroPad(plainSize uint64) fuse.Status`.
Go's `%` panics on a zero divisor: the result is then `none`. -/
def zeroPad {σ : Type} (f : File σ) (s : σ) (plainSize : Nat) : Option (Outcome σ) :=
  if f.contentEnc.PlainBS = 0 then none
  else
    let lastBlockLen := plainSize % f.contentEnc.PlainBS
    if lastBlockLen = 0 then
      -- Already block-aligned
      some ⟨OK, [], s⟩
    else
      let missing := f.contentEnc.PlainBS - lastBlockLen
      let pad : List Byte := List.replicate missing 0
      let r := f.doWrite s pad (int64 plainSize)
      some ⟨r.1.2, [⟨pad, int64 plainSize⟩], r.2⟩

/-- `func (f *File) writePadHole(targetOff int64) fuse.Status`. -/
def writePadHole {σ : Type} (f : File σ) (s : σ) (targetOff : Int) : Option (Outcome σ) :=
  match f.Stat s with
  | .error err => some ⟨f.ToStatus err, [], s⟩
  | .ok size =>
    let plainSize := f.contentEnc.CipherSizeToPlainSize (uint64 size)
    let nextBlock := f.contentEnc.PlainOffToBlockNo plainSize
    let targetBlock := f.contentEnc.PlainOffToBlockNo (uint64 targetOff)
    if targetBlock ≤ nextBlock then
      some ⟨OK, [], s⟩
    else
      match zeroPad f s plainSize with
      | none => none
      | some r =>
        if r.status ≠ OK then some ⟨r.status, r.writes, r.file⟩
        else some ⟨OK, r.writes, r.file⟩

/-! ## Data Seeker -/

/-- One recorded call `syscall.Seek(fd, offset, whence)`. -/
structure SeekCall where
  fd : Int
  offset : Int
  whence : Int
  deriving DecidableEq, Repr

/-- The host runtime seen by `SeekData`: the constant `runtime.GOOS`, the errno
`syscall.EOPNOTSUPP` of that host, and `syscall.Seek`, which returns an
`(offset, error)` pair (`none` is Go's `nil` error) and the store afterwards. -/
structure Runtime (σ : Type) where
  GOOS : String
  EOPNOTSUPP : Errno
  Seek : σ → Int → Int → Int → (Int × Option Errno) × σ

/-- What a call of `SeekData` leaves behind: the returned `(offset, error)`
pair, the `syscall.Seek` calls issued and the backing store. -/
structure SeekOutcome (σ : Type) where
  offset : Int
  err : Option Errno
  seeks : List SeekCall
  file : σ
  deriving DecidableEq, Repr

/-- The constant `SEEK_DATA` declared inside `SeekData`. -/
def SEEK_DATA : Int := 3

/-- `func (f *File) SeekData(oldOffset int64) (int64, error)`. -/
def SeekData {σ : Type} (rt : Runtime σ) (f : File σ) (s : σ) (oldOffset : Int) :
    SeekOutcome σ :=
  if rt.GOOS ≠ "linux" then
    ⟨0, some rt.EOPNOTSUPP, [], s⟩
  else
    let fd := f.intFd
    let r := rt.Seek s fd oldOffset SEEK_DATA
    ⟨r.1.1, r.1.2, [⟨fd, oldOffset, SEEK_DATA⟩], r.2⟩

/-! ## Observations on the backing store -/

/-- The plaintext size of the store `s` as `writePadHole` computes it:
`CipherSizeToPlainSize(uint64(fi.Size()))`, or `none` when the size inquiry
fails. -/
def plainSizeOf {σ : Type} (f : File σ) (s : σ) : Option Nat :=
  match f.Stat s with
  | .error _ => none
  | .ok size => some (f.contentEnc.CipherSizeToPlainSize (uint64 size))

/-- The nested write extends the plaintext by exactly the bytes written: a
`doWrite` of `buf` at the end of the plaintext that returns `OK` leaves a store
whose plaintext size has grown by `buf.length`. -/
def ExtendsOnSuccess {σ : Type} (f : File σ) : Prop :=
  ∀ (s : σ) (p : Nat) (buf : List Byte), plainSizeOf f s = some p →
    (f.doWrite s buf (int64 p)).1.2 = OK →
    plainSizeOf f (f.doWrite s buf (int64 p)).2 = some (p + buf.length)

/-- The nested write either writes its whole buffer or nothing: a `doWrite` of
`buf` at the end of the plaintext leaves the plaintext size unchanged or grown
by `buf.length`. -/
def WholeOrNothing {σ : Type} (f : File σ) : Prop :=
  ∀ (s : σ) (p : Nat) (buf : List Byte), plainSizeOf f s = some p →
    plainSizeOf f (f.doWrite s buf (int64 p)).2 = some p ∨
    plainSizeOf f (f.doWrite s buf (int64 p)).2 = some (p + buf.length)

/-- Modelled from the spec: `doWrite` is missing from the sources. In the
contract of the write path a short write is an `IO_WRITE` failure: when
`doWrite` returns `OK`, the count it returns is the length of the whole
buffer. -/
def FullWriteOnOK {σ : Type} (f : File σ) : Prop :=
  ∀ (s : σ) (buf : List Byte) (off : Int),
    (f.doWrite s buf off).1.2 = OK → (f.doWrite s buf off).1.1 = buf.length

/-! ## Reference backing files

Concrete collaborators on which the functions above can be evaluated. The store
is the size in bytes of the ciphertext file. -/

/-- Modelled from the spec: the ciphertext size of a plaintext of `p` bytes, the
inverse direction of the Size Mapper: the header, one ciphertext block per full
plaintext block and the trailing bytes plus their overhead; the empty file has
ciphertext size `0`. -/
def ContentEnc.PlainSizeToCipherSize (ce : ContentEnc) (p : Nat) : Nat :=
  if p = 0 then 0
  else ce.headerLen + (p / ce.plainBS) * ce.CipherBS +
    (if p % ce.plainBS = 0 then 0 else p % ce.plainBS + ce.overhead)

/-- Errno `EACCES`. -/
def EACCES : Errno := 13
/-- Errno `EFBIG`. -/
def EFBIG : Errno := 27
/-- Errno `ENOSPC`. -/
def ENOSPC : Errno := 28

/-- A well-behaved backing file: the size inquiry succeeds, and `doWrite` stores
the whole buffer at `off` (growing the file when the buffer ends past the end),
or fails with `EFBIG`, storing nothing, when the offset is negative or the
resulting ciphertext size does not fit an `int64`. -/
def memFile (ce : ContentEnc) : File Nat where
  contentEnc := ce
  Stat := fun c => .ok (c : Int)
  doWrite := fun c buf off =>
    let p := ce.CipherSizeToPlainSize (uint64 (c : Int))
    let c2 := ce.PlainSizeToCipherSize (max p (off.toNat + buf.length))
    if off < 0 ∨ 2 ^ 63 ≤ c2 then ((0, (EFBIG : Int)), c) else ((buf.length, OK), c2)
  ToStatus := fun e => (e : Int)
  intFd := 3

/-- A backing file on a full disk: `doWrite` stores nothing and returns
`ENOSPC`. -/
def fullFile (ce : ContentEnc) : File Nat where
  contentEnc := ce
  Stat := fun c => .ok (c : Int)
  doWrite := fun c _ _ => ((0, (ENOSPC : Int)), c)
  ToStatus := fun e => (e : Int)
  intFd := 3

/-- A backing file whose size inquiry fails with `EACCES`. -/
def noStatFile (ce : ContentEnc) : File Nat where
  contentEnc := ce
  Stat := fun _ => .error EACCES
  doWrite := (memFile ce).doWrite
  ToStatus := fun e => (e : Int)
  intFd := 3

/-- Block parameters of the scenarios: `PBS = 4096`, `overhead = 32`, `H = 18`. -/
def ce0 : ContentEnc := ⟨4096, 32, 18⟩

/-- A host that is not Linux; `EOPNOTSUPP` is 102 there. Its `Seek` is never
meant to be used: it would move the store. -/
def darwinRuntime : Runtime Nat where
  GOOS := "darwin"
  EOPNOTSUPP := 102
  Seek := fun c _ off _ => ((off, none), c + 1)

/-- A Linux host (`EOPNOTSUPP` is 95) whose files have no holes: `SEEK_DATA`
returns the offset itself inside the file and `ENXIO` (6) at or past its end. -/
def linuxRuntime : Runtime Nat where
  GOOS := "linux"
  EOPNOTSUPP := 95
  Seek := fun c _ off whence =>
    if whence = 3 ∧ 0 ≤ off ∧ off < (c : Int) then ((off, none), c) else ((-1, some 6), c)


/-! ## Auxiliary facts -/

/-- On a non-negative `int64` value, `uint64(x)` is the value itself. -/
theorem uint64_of_nonneg (x : Int) (h0 : 0 ≤ x) (h : x < 2 ^ 64) : uint64 x = x.toNat := by
  unfold uint64
  rw [Int.emod_eq_of_lt h0 h]

theorem uint64_natCast (c : Nat) (h : c < 2 ^ 64) : uint64 (c : Int) = c := by
  rw [uint64_of_nonneg _ (Int.ofNat_nonneg c) (by exact_mod_cast h)]
  simp

/-- Below `2^63`, `int64(x)` is the value itself. -/
theorem int64_of_lt (x : Nat) (h : x < 2 ^ 63) : int64 x = (x : Int) := by
  have h2 : x % 2 ^ 64 = x := Nat.mod_eq_of_lt (by omega)
  unfold int64
  rw [h2, if_pos h]

theorem int64_nonneg_iff (x : Nat) (h : x < 2 ^ 64) : 0 ≤ int64 x ↔ x < 2 ^ 63 := by
  have h2 : x % 2 ^ 64 = x := Nat.mod_eq_of_lt h
  unfold int64
  rw [h2]
  split <;> omega

/-- The plaintext is never longer than the ciphertext. -/
theorem CipherSizeToPlainSize_le (ce : ContentEnc) (c : Nat) :
    ce.CipherSizeToPlainSize c ≤ c := by
  unfold ContentEnc.CipherSizeToPlainSize
  split
  · exact Nat.zero_le _
  · rename_i h
    simp only
    have h1 := Nat.div_add_mod (c - ce.headerLen) ce.CipherBS
    have h2 : (c - ce.headerLen) / ce.CipherBS * ce.plainBS
        ≤ ce.CipherBS * ((c - ce.headerLen) / ce.CipherBS) := by
      rw [Nat.mul_comm]
      exact Nat.mul_le_mul_right _ (by unfold ContentEnc.CipherBS; omega)
    omega

theorem CipherSizeToPlainSize_uint64_lt (ce : ContentEnc) (size : Int)
    (h0 : 0 ≤ size) (h : size < 2 ^ 63) :
    ce.CipherSizeToPlainSize (uint64 size) < 2 ^ 63 := by
  have h1 := CipherSizeToPlainSize_le ce (uint64 size)
  rw [uint64_of_nonneg size h0 (by omega)] at h1 ⊢
  omega

/-- Two offsets in different blocks: the block size is not zero. -/
theorem plainBS_ne_zero_of_block_lt (ce : ContentEnc) (a b : Nat)
    (h : ¬ ce.PlainOffToBlockNo a ≤ ce.PlainOffToBlockNo b) : ce.PlainBS ≠ 0 := by
  intro h0
  apply h
  unfold ContentEnc.PlainBS at h0
  unfold ContentEnc.PlainOffToBlockNo
  rw [h0]
  simp

theorem zeroPad_aligned {σ : Type} (f : File σ) (s : σ) (plainSize : Nat)
    (hbs : f.contentEnc.PlainBS ≠ 0) (hal : plainSize % f.contentEnc.PlainBS = 0) :
    zeroPad f s plainSize = some ⟨OK, [], s⟩ := by
  unfold zeroPad
  rw [if_neg hbs]
  simp only
  rw [if_pos hal]

theorem zeroPad_unaligned {σ : Type} (f : File σ) (s : σ) (plainSize : Nat)
    (hbs : f.contentEnc.PlainBS ≠ 0) (hal : plainSize % f.contentEnc.PlainBS ≠ 0) :
    zeroPad f s plainSize =
      some ⟨(f.doWrite s (List.replicate (f.contentEnc.PlainBS - plainSize % f.contentEnc.PlainBS) 0)
              (int64 plainSize)).1.2,
            [⟨List.replicate (f.contentEnc.PlainBS - plainSize % f.contentEnc.PlainBS) 0,
              int64 plainSize⟩],
            (f.doWrite s (List.replicate (f.contentEnc.PlainBS - plainSize % f.contentEnc.PlainBS) 0)
              (int64 plainSize)).2⟩ := by
  unfold zeroPad
  rw [if_neg hbs]
  simp only
  rw [if_neg hal]

/-- The four paths through `writePadHole`: the size inquiry fails. -/
theorem writePadHole_stat_error {σ : Type} (f : File σ) (s : σ) (targetOff : Int) (e : Errno)
    (hstat : f.Stat s = .error e) :
    writePadHole f s targetOff = some ⟨f.ToStatus e, [], s⟩ := by
  unfold writePadHole
  rw [hstat]

/-- The target block is not past the next block. -/
theorem writePadHole_near {σ : Type} (f : File σ) (s : σ) (targetOff size : Int)
    (hstat : f.Stat s = .ok size)
    (hblk : f.contentEnc.PlainOffToBlockNo (uint64 targetOff) ≤
      f.contentEnc.PlainOffToBlockNo (f.contentEnc.CipherSizeToPlainSize (uint64 size))) :
    writePadHole f s targetOff = some ⟨OK, [], s⟩ := by
  unfold writePadHole
  rw [hstat]
  simp only
  rw [if_pos hblk]

/-- The target block is past the next block, the file is block-aligned. -/
theorem writePadHole_far_aligned {σ : Type} (f : File σ) (s : σ) (targetOff size : Int)
    (hstat : f.Stat s = .ok size)
    (hblk : ¬ f.contentEnc.PlainOffToBlockNo (uint64 targetOff) ≤
      f.contentEnc.PlainOffToBlockNo (f.contentEnc.CipherSizeToPlainSize (uint64 size)))
    (hal : f.contentEnc.CipherSizeToPlainSize (uint64 size) % f.contentEnc.PlainBS = 0) :
    writePadHole f s targetOff = some ⟨OK, [], s⟩ := by
  have hbs := plainBS_ne_zero_of_block_lt _ _ _ hblk
  unfold writePadHole
  rw [hstat]
  simp only
  rw [if_neg hblk, zeroPad_aligned f s _ hbs hal]
  simp

/-- The target block is past the next block, the last block is short. -/
theorem writePadHole_far_unaligned {σ : Type} (f : File σ) (s : σ) (targetOff size : Int)
    (hstat : f.Stat s = .ok size)
    (hblk : ¬ f.contentEnc.PlainOffToBlockNo (uint64 targetOff) ≤
      f.contentEnc.PlainOffToBlockNo (f.contentEnc.CipherSizeToPlainSize (uint64 size)))
    (hal : f.contentEnc.CipherSizeToPlainSize (uint64 size) % f.contentEnc.PlainBS ≠ 0) :
    writePadHole f s targetOff =
      some ⟨(f.doWrite s (List.replicate (f.contentEnc.PlainBS -
                f.contentEnc.CipherSizeToPlainSize (uint64 size) % f.contentEnc.PlainBS) 0)
              (int64 (f.contentEnc.CipherSizeToPlainSize (uint64 size)))).1.2,
            [⟨List.replicate (f.contentEnc.PlainBS -
                f.contentEnc.CipherSizeToPlainSize (uint64 size) % f.contentEnc.PlainBS) 0,
              int64 (f.contentEnc.CipherSizeToPlainSize (uint64 size))⟩],
            (f.doWrite s (List.replicate (f.contentEnc.PlainBS -
                f.contentEnc.CipherSizeToPlainSize (uint64 size) % f.contentEnc.PlainBS) 0)
              (int64 (f.contentEnc.CipherSizeToPlainSize (uint64 size)))).2⟩ := by
  have hbs := plainBS_ne_zero_of_block_lt _ _ _ hblk
  unfold writePadHole
  rw [hstat]
  simp only
  rw [if_neg hblk, zeroPad_unaligned f s _ hbs hal]
  simp only
  split <;> simp_all

theorem uint64_lt (x : Int) : uint64 x < 2 ^ 64 := by
  unfold uint64
  have h := Int.emod_lt_of_pos x (show (0 : Int) < 2 ^ 64 by norm_num)
  have h0 := Int.emod_nonneg x (show (2 ^ 64 : Int) ≠ 0 by norm_num)
  omega

/-- Round trip of the Size Mapper: the ciphertext size of `p` plaintext bytes
maps back to `p`. -/
theorem CipherSizeToPlainSize_PlainSizeToCipherSize (ce : ContentEnc) (hbs : 0 < ce.plainBS)
    (p : Nat) : ce.CipherSizeToPlainSize (ce.PlainSizeToCipherSize p) = p := by
  unfold ContentEnc.PlainSizeToCipherSize
  by_cases hp : p = 0
  · subst hp
    unfold ContentEnc.CipherSizeToPlainSize
    simp
  · rw [if_neg hp]
    have hcbs : 0 < ce.CipherBS := by unfold ContentEnc.CipherBS; omega
    have hq : p % ce.plainBS < ce.plainBS := Nat.mod_lt _ hbs
    have hdm := Nat.div_add_mod p ce.plainBS
    have hr : (if p % ce.plainBS = 0 then 0 else p % ce.plainBS + ce.overhead) < ce.CipherBS := by
      unfold ContentEnc.CipherBS
      split <;> omega
    generalize hrdef : (if p % ce.plainBS = 0 then 0 else p % ce.plainBS + ce.overhead) = r at hr
    have hro : r - ce.overhead = p % ce.plainBS := by
      rw [← hrdef]
      split <;> omega
    unfold ContentEnc.CipherSizeToPlainSize
    rw [if_neg (by omega)]
    simp only
    have hbody : ce.headerLen + p / ce.plainBS * ce.CipherBS + r - ce.headerLen
        = r + ce.CipherBS * (p / ce.plainBS) := by
      rw [Nat.mul_comm ce.CipherBS]
      omega
    rw [hbody, Nat.add_mul_div_left _ _ hcbs, Nat.add_mul_mod_self_left,
      Nat.div_eq_of_lt hr, Nat.mod_eq_of_lt hr, hro, Nat.zero_add, Nat.mul_comm]
    exact hdm

theorem plainSizeOf_natStat (f : File Nat) (hS : f.Stat = fun c => .ok (c : Int)) (c : Nat) :
    plainSizeOf f c = some (f.contentEnc.CipherSizeToPlainSize (uint64 (c : Int))) := by
  unfold plainSizeOf
  rw [hS]

theorem memFile_doWrite_ok (ce : ContentEnc) (hbs : 0 < ce.plainBS) (c : Nat) (buf : List Byte)
    (hOK : ((memFile ce).doWrite c buf
      (int64 (ce.CipherSizeToPlainSize (uint64 (c : Int))))).1.2 = OK) :
    plainSizeOf (memFile ce) ((memFile ce).doWrite c buf
      (int64 (ce.CipherSizeToPlainSize (uint64 (c : Int))))).2
      = some (ce.CipherSizeToPlainSize (uint64 (c : Int)) + buf.length) := by
  rw [plainSizeOf_natStat _ rfl]
  have hp64 : ce.CipherSizeToPlainSize (uint64 (c : Int)) < 2 ^ 64 :=
    Nat.lt_of_le_of_lt (CipherSizeToPlainSize_le _ _) (uint64_lt _)
  simp only [memFile] at hOK ⊢
  generalize ce.CipherSizeToPlainSize (uint64 (c : Int)) = p at hOK hp64 ⊢
  split at hOK
  · simp [EFBIG, OK] at hOK
  · rename_i hcond
    rw [if_neg hcond]
    simp only
    have hoff : 0 ≤ int64 p := by omega
    have hp63 : p < 2 ^ 63 := (int64_nonneg_iff p hp64).1 hoff
    rw [int64_of_lt p hp63] at hcond ⊢
    have hmax : max p ((p : Int).toNat + buf.length) = p + buf.length := by
      simp
    rw [hmax] at hcond ⊢
    rw [uint64_natCast _ (by omega), CipherSizeToPlainSize_PlainSizeToCipherSize ce hbs]

/-- The well-behaved file extends the plaintext by the bytes written. -/
theorem memFile_extendsOnSuccess (ce : ContentEnc) (hbs : 0 < ce.plainBS) :
    ExtendsOnSuccess (memFile ce) := by
  intro s p buf hp hOK
  rw [plainSizeOf_natStat _ rfl] at hp
  have hp2 : (memFile ce).contentEnc.CipherSizeToPlainSize (uint64 (s : Int)) = p :=
    Option.some.inj hp
  subst hp2
  exact memFile_doWrite_ok ce hbs s buf hOK

/-- The well-behaved file stores a whole buffer or nothing. -/
theorem memFile_wholeOrNothing (ce : ContentEnc) (hbs : 0 < ce.plainBS) :
    WholeOrNothing (memFile ce) := by
  intro s p buf hp
  by_cases hOK : ((memFile ce).doWrite s buf (int64 p)).1.2 = OK
  · exact Or.inr (memFile_extendsOnSuccess ce hbs s p buf hp hOK)
  · left
    have hst : ((memFile ce).doWrite s buf (int64 p)).2 = s := by
      simp only [memFile] at hOK ⊢
      split
      · rfl
      · rename_i hc
        rw [if_neg hc] at hOK
        exact absurd rfl hOK
    rw [hst, hp]

/-- The well-behaved file reports `OK` only for a whole buffer. -/
theorem memFile_fullWriteOnOK (ce : ContentEnc) : FullWriteOnOK (memFile ce) := by
  intro s buf off hOK
  simp only [memFile] at hOK ⊢
  split
  · rename_i hc
    rw [if_pos hc] at hOK
    simp [EFBIG, OK] at hOK
  · rfl

/-- The full disk never reports `OK`. -/
theorem fullFile_fullWriteOnOK (ce : ContentEnc) : FullWriteOnOK (fullFile ce) := by
  intro s buf off hOK
  simp [fullFile, ENOSPC, OK] at hOK

/-- Totality: `writePadHole` returns on every input. -/
theorem writePadHole_total {σ : Type} (f : File σ) (s : σ) (targetOff : Int) :
    ∃ r, writePadHole f s targetOff = some r := by
  cases hstat : f.Stat s with
  | error e => exact ⟨_, writePadHole_stat_error f s targetOff e hstat⟩
  | ok size =>
    by_cases hblk : f.contentEnc.PlainOffToBlockNo (uint64 targetOff) ≤
        f.contentEnc.PlainOffToBlockNo (f.contentEnc.CipherSizeToPlainSize (uint64 size))
    · exact ⟨_, writePadHole_near f s targetOff size hstat hblk⟩
    · by_cases hal : f.contentEnc.CipherSizeToPlainSize (uint64 size) % f.contentEnc.PlainBS = 0
      · exact ⟨_, writePadHole_far_aligned f s targetOff size hstat hblk hal⟩
      · exact ⟨_, writePadHole_far_unaligned f s targetOff size hstat hblk hal⟩

/-- Adding the missing bytes of the last block reaches a block boundary. -/
theorem add_pad_mod (p b : Nat) (hb : 0 < b) : (p + (b - p % b)) % b = 0 := by
  have hlt : p % b < b := Nat.mod_lt _ hb
  have hdm := Nat.div_add_mod p b
  have h : p + (b - p % b) = b * (p / b + 1) := by
    rw [Nat.mul_add, Nat.mul_one]
    omega
  rw [h]
  exact Nat.mul_mod_right _ _

theorem plainSizeOf_ok {σ : Type} (f : File σ) (s : σ) (size : Int) (hstat : f.Stat s = .ok size) :
    plainSizeOf f s = some (f.contentEnc.CipherSizeToPlainSize (uint64 size)) := by
  unfold plainSizeOf
  rw [hstat]

theorem memFile_doWrite_replicate (ce : ContentEnc) (c n : Nat) (off : Int)
    (h : ¬ (off < 0 ∨ 2 ^ 63 ≤ ce.PlainSizeToCipherSize
      (max (ce.CipherSizeToPlainSize (uint64 (c : Int))) (off.toNat + n)))) :
    (memFile ce).doWrite c (List.replicate n 0) off =
      ((n, OK), ce.PlainSizeToCipherSize
        (max (ce.CipherSizeToPlainSize (uint64 (c : Int))) (off.toNat + n))) := by
  simp only [memFile, List.length_replicate]
  rw [if_neg h]

/-- Scenario S4 on the well-behaved file: `plainSize = 100` (ciphertext size
150), `targetOff = 5000`. -/
theorem memFile_scenario_S4 :
    writePadHole (memFile ce0) 150 5000 =
      some ⟨OK, [⟨List.replicate 3996 0, 100⟩], 4146⟩ := by
  have h := writePadHole_far_unaligned (memFile ce0) 150 5000 150 rfl (by decide) (by decide)
  have hp : (memFile ce0).contentEnc.CipherSizeToPlainSize (uint64 150) = 100 := by decide
  have hb : (memFile ce0).contentEnc.PlainBS = 4096 := rfl
  have hi : int64 100 = 100 := by decide
  rw [hp, hb, hi] at h
  norm_num at h
  rw [memFile_doWrite_replicate ce0 150 3996 100 (by decide)] at h
  exact h

/-- Scenario S4 on the full disk. -/
theorem fullFile_scenario_S4 :
    writePadHole (fullFile ce0) 150 5000 =
      some ⟨(ENOSPC : Int), [⟨List.replicate 3996 0, 100⟩], 150⟩ := by
  have h := writePadHole_far_unaligned (fullFile ce0) 150 5000 150 rfl (by decide) (by decide)
  have hp : (fullFile ce0).contentEnc.CipherSizeToPlainSize (uint64 150) = 100 := by decide
  have hb : (fullFile ce0).contentEnc.PlainBS = 4096 := rfl
  have hi : int64 100 = 100 := by decide
  rw [hp, hb, hi] at h
  norm_num at h
  exact h

/-! ## The claims -/

/-- C1, no write within the next block: when the size inquiry succeeds and the
block of `targetOff` is not past the block of `plainSize`
(`PlainOffToBlockNo(targetOff) ≤ PlainOffToBlockNo(plainSize)`; the code reads
`targetOff` as `uint64(targetOff)`, which is `targetOff` itself for
`targetOff ≥ 0`), `writePadHole` returns `OK`, issues no nested write and leaves
the file as it was. -/
theorem writePadHole_target_within_next_block {σ : Type} (f : File σ) (s : σ)
    (targetOff size : Int) (hstat : f.Stat s = .ok size)
    (hblk : f.contentEnc.PlainOffToBlockNo (uint64 targetOff) ≤
      f.contentEnc.PlainOffToBlockNo (f.contentEnc.CipherSizeToPlainSize (uint64 size))) :
    writePadHole f s targetOff = some ⟨OK, [], s⟩ :=
  writePadHole_near f s targetOff size hstat hblk

/-- Scenario S3 (`plainSize = 100`, ciphertext size 150, `targetOff = 200`): no
pad, the file keeps its size. -/
theorem writePadHole_target_within_next_block_witness :
    writePadHole (memFile ce0) 150 200 = some ⟨OK, [], 150⟩ :=
  writePadHole_target_within_next_block (memFile ce0) 150 200 150 rfl (by decide)

/-- C2, the pad: when the size inquiry succeeds with a size `0 ≤ size < 2^63`,
the block of `targetOff` is past the block of `plainSize` and
`plainSize mod PBS ≠ 0`, `writePadHole` issues exactly one nested write: its
buffer is `PBS - plainSize mod PBS` zero bytes and its offset is `plainSize`. The
status returned and the file left behind are those of that write. -/
theorem writePadHole_pads_last_block {σ : Type} (f : File σ) (s : σ)
    (targetOff size : Int) (hstat : f.Stat s = .ok size)
    (hsize0 : 0 ≤ size) (hsize : size < 2 ^ 63)
    (hblk : f.contentEnc.PlainOffToBlockNo (f.contentEnc.CipherSizeToPlainSize (uint64 size)) <
      f.contentEnc.PlainOffToBlockNo (uint64 targetOff))
    (hal : f.contentEnc.CipherSizeToPlainSize (uint64 size) % f.contentEnc.PlainBS ≠ 0) :
    ∃ r, writePadHole f s targetOff = some r ∧
      r.writes = [⟨List.replicate (f.contentEnc.PlainBS -
          f.contentEnc.CipherSizeToPlainSize (uint64 size) % f.contentEnc.PlainBS) 0,
        (f.contentEnc.CipherSizeToPlainSize (uint64 size) : Int)⟩] ∧
      r.status = (f.doWrite s (List.replicate (f.contentEnc.PlainBS -
          f.contentEnc.CipherSizeToPlainSize (uint64 size) % f.contentEnc.PlainBS) 0)
        (f.contentEnc.CipherSizeToPlainSize (uint64 size) : Int)).1.2 ∧
      r.file = (f.doWrite s (List.replicate (f.contentEnc.PlainBS -
          f.contentEnc.CipherSizeToPlainSize (uint64 size) % f.contentEnc.PlainBS) 0)
        (f.contentEnc.CipherSizeToPlainSize (uint64 size) : Int)).2 := by
  have h := writePadHole_far_unaligned f s targetOff size hstat (Nat.not_le.mpr hblk) hal
  rw [int64_of_lt _ (CipherSizeToPlainSize_uint64_lt _ size hsize0 hsize)] at h
  exact ⟨_, h, rfl, rfl, rfl⟩

/-- Scenarios S4 (`plainSize = 100`, `targetOff = 5000`: 3996 zero bytes at
offset 100) and S6 (`plainSize = 4097`, `targetOff = 100000`: 4095 zero bytes at
offset 4097) on the well-behaved file. -/
theorem writePadHole_pads_last_block_witness :
    (∃ r, writePadHole (memFile ce0) 150 5000 = some r ∧
      r.writes = [⟨List.replicate 3996 0, 100⟩] ∧ r.status = OK ∧ r.file = 4146) ∧
    (∃ r, writePadHole (memFile ce0) 4179 100000 = some r ∧
      r.writes = [⟨List.replicate 4095 0, 4097⟩] ∧ r.status = OK ∧ r.file = 8274) := by
  constructor
  · obtain ⟨r, h1, h2, h3, h4⟩ := writePadHole_pads_last_block (memFile ce0) 150 5000 150 rfl
      (by decide) (by decide) (by decide) (by decide)
    have hp : (memFile ce0).contentEnc.CipherSizeToPlainSize (uint64 150) = 100 := by decide
    have hb : (memFile ce0).contentEnc.PlainBS = 4096 := rfl
    rw [hp, hb] at h2 h3 h4
    norm_num at h2 h3 h4
    rw [memFile_doWrite_replicate ce0 150 3996 100 (by decide)] at h3 h4
    exact ⟨r, h1, h2, h3, h4⟩
  · obtain ⟨r, h1, h2, h3, h4⟩ := writePadHole_pads_last_block (memFile ce0) 4179 100000 4179
      rfl (by decide) (by decide) (by decide) (by decide)
    have hp : (memFile ce0).contentEnc.CipherSizeToPlainSize (uint64 4179) = 4097 := by decide
    have hb : (memFile ce0).contentEnc.PlainBS = 4096 := rfl
    rw [hp, hb] at h2 h3 h4
    norm_num at h2 h3 h4
    rw [memFile_doWrite_replicate ce0 4179 4095 4097 (by decide)] at h3 h4
    exact ⟨r, h1, h2, h3, h4⟩

/-- C4, idempotence: let the nested write extend the plaintext by exactly the
bytes written whenever it succeeds. `writePadHole(targetOff)` returns, and if
it returned `OK`, a second `writePadHole(targetOff)` on the file it left behind
returns `OK`, issues no nested write and leaves that file as it is: two calls
in a row end with the same file, hence the same size, as one call. -/
theorem writePadHole_idempotent {σ : Type} (f : File σ) (s : σ) (targetOff : Int)
    (hext : ExtendsOnSuccess f) :
    ∃ r, writePadHole f s targetOff = some r ∧
      (r.status = OK → writePadHole f r.file targetOff = some ⟨OK, [], r.file⟩) := by
  cases hstat : f.Stat s with
  | error e =>
    refine ⟨_, writePadHole_stat_error f s targetOff e hstat, fun hok => ?_⟩
    have h2 := writePadHole_stat_error f s targetOff e hstat
    simp only at hok ⊢
    rw [h2, hok]
  | ok size =>
    by_cases hblk : f.contentEnc.PlainOffToBlockNo (uint64 targetOff) ≤
        f.contentEnc.PlainOffToBlockNo (f.contentEnc.CipherSizeToPlainSize (uint64 size))
    · exact ⟨_, writePadHole_near f s targetOff size hstat hblk, fun _ =>
        writePadHole_near f s targetOff size hstat hblk⟩
    · by_cases hal : f.contentEnc.CipherSizeToPlainSize (uint64 size) % f.contentEnc.PlainBS = 0
      · exact ⟨_, writePadHole_far_aligned f s targetOff size hstat hblk hal, fun _ =>
          writePadHole_far_aligned f s targetOff size hstat hblk hal⟩
      · refine ⟨_, writePadHole_far_unaligned f s targetOff size hstat hblk hal, fun hok => ?_⟩
        have hbs : 0 < f.contentEnc.PlainBS :=
          Nat.pos_of_ne_zero (plainBS_ne_zero_of_block_lt _ _ _ hblk)
        have h := hext s _ _ (plainSizeOf_ok f s size hstat) hok
        rw [List.length_replicate] at h
        simp only at h ⊢
        generalize (f.doWrite s _ _).2 = s2 at h ⊢
        cases hstat2 : f.Stat s2 with
        | error e2 =>
          unfold plainSizeOf at h
          rw [hstat2] at h
          exact absurd h (by simp)
        | ok size2 =>
          rw [plainSizeOf_ok f s2 size2 hstat2] at h
          have hal2 : f.contentEnc.CipherSizeToPlainSize (uint64 size2) % f.contentEnc.PlainBS = 0 := by
            rw [Option.some.inj h]
            exact add_pad_mod _ _ hbs
          by_cases hblk2 : f.contentEnc.PlainOffToBlockNo (uint64 targetOff) ≤
              f.contentEnc.PlainOffToBlockNo (f.contentEnc.CipherSizeToPlainSize (uint64 size2))
          · exact writePadHole_near f s2 targetOff size2 hstat2 hblk2
          · exact writePadHole_far_aligned f s2 targetOff size2 hstat2 hblk2 hal2

/-- Scenario S4 twice on the well-behaved file: the first call pads to 4096
plaintext bytes (ciphertext size 4146), the second call writes nothing. -/
theorem writePadHole_idempotent_witness :
    writePadHole (memFile ce0) 150 5000 = some ⟨OK, [⟨List.replicate 3996 0, 100⟩], 4146⟩ ∧
    writePadHole (memFile ce0) 4146 5000 = some ⟨OK, [], 4146⟩ := by
  obtain ⟨r, h1, h2⟩ := writePadHole_idempotent (memFile ce0) 150 5000
    (memFile_extendsOnSuccess ce0 (by decide))
  rw [memFile_scenario_S4] at h1
  cases h1
  exact ⟨memFile_scenario_S4, h2 rfl⟩

/-- C5, error propagation: `writePadHole` returns an outcome `r` such that
* if the size inquiry fails with `e`, then `r.status = fuse.ToStatus(e)`, no
  nested write is issued and the file is as it was;
* if the size inquiry succeeds, the status returned is exactly the status of
  every nested write issued (there is at most one), whatever that status is;
* if `r.status` is not `OK`, then either the size inquiry failed with some `e`
  and `r.status = fuse.ToStatus(e)`, or the size inquiry succeeded, exactly one
  nested write was issued and it returned `r.status`. -/
theorem writePadHole_error_propagation {σ : Type} (f : File σ) (s : σ) (targetOff : Int) :
    ∃ r, writePadHole f s targetOff = some r ∧
      (∀ e, f.Stat s = .error e → r.status = f.ToStatus e ∧ r.writes = [] ∧ r.file = s) ∧
      (∀ size, f.Stat s = .ok size →
        ∀ w ∈ r.writes, r.status = (f.doWrite s w.buf w.off).1.2) ∧
      (r.status ≠ OK →
        (∃ e, f.Stat s = .error e ∧ r.status = f.ToStatus e) ∨
        (∃ size w, f.Stat s = .ok size ∧ r.writes = [w] ∧
          (f.doWrite s w.buf w.off).1.2 = r.status)) := by
  cases hstat : f.Stat s with
  | error e =>
    refine ⟨_, writePadHole_stat_error f s targetOff e hstat, ?_, ?_, ?_⟩
    · intro e2 he2
      cases he2
      exact ⟨rfl, rfl, rfl⟩
    · intro size hsz
      cases hsz
    · intro _
      exact Or.inl ⟨e, rfl, rfl⟩
  | ok size =>
    by_cases hblk : f.contentEnc.PlainOffToBlockNo (uint64 targetOff) ≤
        f.contentEnc.PlainOffToBlockNo (f.contentEnc.CipherSizeToPlainSize (uint64 size))
    · refine ⟨_, writePadHole_near f s targetOff size hstat hblk, ?_, ?_, ?_⟩
      · intro e he
        cases he
      · intro _ _ w hw
        cases hw
      · intro h
        exact absurd rfl h
    · by_cases hal : f.contentEnc.CipherSizeToPlainSize (uint64 size) % f.contentEnc.PlainBS = 0
      · refine ⟨_, writePadHole_far_aligned f s targetOff size hstat hblk hal, ?_, ?_, ?_⟩
        · intro e he
          cases he
        · intro _ _ w hw
          cases hw
        · intro h
          exact absurd rfl h
      · refine ⟨_, writePadHole_far_unaligned f s targetOff size hstat hblk hal, ?_, ?_, ?_⟩
        · intro e he
          cases he
        · intro _ _ w hw
          rw [List.mem_singleton] at hw
          subst hw
          rfl
        · intro _
          exact Or.inr ⟨size, _, rfl, rfl, rfl⟩

/-- A failing size inquiry (`EACCES`, status 13, nothing written) and a failing
nested write (`ENOSPC`, status 28) in scenario S4. -/
theorem writePadHole_error_propagation_witness :
    (∃ r, writePadHole (noStatFile ce0) 150 5000 = some r ∧
      r.status = 13 ∧ r.writes = [] ∧ r.file = 150) ∧
    (∃ r, writePadHole (fullFile ce0) 150 5000 = some r ∧ r.status = 28) := by
  constructor
  · obtain ⟨r, h, h1, _, _⟩ := writePadHole_error_propagation (noStatFile ce0) 150 5000
    exact ⟨r, h, h1 EACCES rfl⟩
  · obtain ⟨r, h, _, h2, _⟩ := writePadHole_error_propagation (fullFile ce0) 150 5000
    refine ⟨r, h, ?_⟩
    have h3 := h
    rw [fullFile_scenario_S4] at h3
    cases h3
    exact h2 150 rfl _ (List.mem_singleton.mpr rfl)

/-- C6, unsupported host: when `runtime.GOOS` is not `"linux"`, `SeekData`
returns offset `0` with the error `syscall.EOPNOTSUPP`, whatever the file and
`oldOffset` are; it issues no `syscall.Seek` and leaves the store as it was. -/
theorem SeekData_unsupported_host {σ : Type} (rt : Runtime σ) (f : File σ) (s : σ)
    (oldOffset : Int) (hos : rt.GOOS ≠ "linux") :
    SeekData rt f s oldOffset = ⟨0, some rt.EOPNOTSUPP, [], s⟩ := by
  unfold SeekData
  rw [if_pos hos]

/-- On a Darwin host `SeekData(7)` fails with `EOPNOTSUPP` without seeking. -/
theorem SeekData_unsupported_host_witness :
    SeekData darwinRuntime (memFile ce0) 150 7 = ⟨0, some 102, [], 150⟩ :=
  SeekData_unsupported_host darwinRuntime (memFile ce0) 150 7 (by decide)

/-- C7, a short nested write is a padder failure: let the write path honour its
contract that a short write is a failure (an `OK` status means the whole buffer
was written). `writePadHole` returns, any nested write it issued under a
successful size inquiry asked for `missing = PBS - plainSize mod PBS` bytes, and
whenever such a write wrote fewer bytes than it asked for, `writePadHole`
returns a status that is not `OK`: the status of that write. -/
theorem writePadHole_short_write_fails {σ : Type} (f : File σ) (s : σ) (targetOff : Int)
    (hcontract : FullWriteOnOK f) :
    ∃ r, writePadHole f s targetOff = some r ∧
      (∀ size, f.Stat s = .ok size → ∀ w ∈ r.writes,
        w.buf.length = f.contentEnc.PlainBS -
          f.contentEnc.CipherSizeToPlainSize (uint64 size) % f.contentEnc.PlainBS) ∧
      (∀ w ∈ r.writes, (f.doWrite s w.buf w.off).1.1 < w.buf.length →
        r.status ≠ OK ∧ r.status = (f.doWrite s w.buf w.off).1.2) := by
  cases hstat : f.Stat s with
  | error e =>
    refine ⟨_, writePadHole_stat_error f s targetOff e hstat, ?_, ?_⟩
    · intro _ _ w hw
      cases hw
    · intro w hw
      cases hw
  | ok size =>
    by_cases hblk : f.contentEnc.PlainOffToBlockNo (uint64 targetOff) ≤
        f.contentEnc.PlainOffToBlockNo (f.contentEnc.CipherSizeToPlainSize (uint64 size))
    · refine ⟨_, writePadHole_near f s targetOff size hstat hblk, ?_, ?_⟩
      · intro _ _ w hw
        cases hw
      · intro w hw
        cases hw
    · by_cases hal : f.contentEnc.CipherSizeToPlainSize (uint64 size) % f.contentEnc.PlainBS = 0
      · refine ⟨_, writePadHole_far_aligned f s targetOff size hstat hblk hal, ?_, ?_⟩
        · intro _ _ w hw
          cases hw
        · intro w hw
          cases hw
      · refine ⟨_, writePadHole_far_unaligned f s targetOff size hstat hblk hal, ?_, ?_⟩
        · intro size2 hsize2 w hw
          rw [List.mem_singleton] at hw
          subst hw
          cases hsize2
          exact List.length_replicate _ _
        · intro w hw hshort
          rw [List.mem_singleton] at hw
          subst hw
          refine ⟨fun hok => ?_, rfl⟩
          exact absurd (hcontract s _ _ hok) (Nat.ne_of_lt hshort)

/-- Scenario S4 on the full disk: the nested write stores 0 of the 3996 bytes
asked for and returns `ENOSPC`, and `writePadHole` returns that status, 28. -/
theorem writePadHole_short_write_fails_witness :
    FullWriteOnOK (fullFile ce0) ∧
    ∃ r, writePadHole (fullFile ce0) 150 5000 = some r ∧
      r.writes = [⟨List.replicate 3996 0, 100⟩] ∧
      ((fullFile ce0).doWrite 150 (List.replicate 3996 0) 100).1.1 = 0 ∧
      r.status ≠ OK ∧ r.status = 28 := by
  obtain ⟨r, h, _, h2⟩ := writePadHole_short_write_fails (fullFile ce0) 150 5000
    (fullFile_fullWriteOnOK ce0)
  have h3 := h
  rw [fullFile_scenario_S4] at h3
  cases h3
  have h4 := h2 ⟨List.replicate 3996 0, 100⟩ (List.mem_singleton.mpr rfl)
    (by rw [List.length_replicate]; exact Nat.zero_lt_succ _)
  exact ⟨fullFile_fullWriteOnOK ce0, _, h, rfl, rfl, h4.1, h4.2⟩

/-- C8 fails as stated: on the well-behaved file (whose nested write stores its
whole buffer or nothing), scenario S4 takes the plaintext from 100 to 4096
bytes, and `4096 - 100 = 3996` is not a multiple of `PBS = 4096`. -/
theorem writePadHole_growth_not_block_multiple :
    WholeOrNothing (memFile ce0) ∧
    plainSizeOf (memFile ce0) 150 = some 100 ∧
    ∃ r, writePadHole (memFile ce0) 150 5000 = some r ∧
      plainSizeOf (memFile ce0) r.file = some 4096 ∧
      (4096 - 100) % (memFile ce0).contentEnc.PlainBS = 3996 := by
  refine ⟨memFile_wholeOrNothing ce0 (by decide), by decide, _, memFile_scenario_S4, ?_, ?_⟩
  · decide
  · decide

/-- C8, amended: let the nested write store its whole buffer or nothing. For
every call, whatever status it returns, the plaintext size is afterwards either
unchanged, or it has grown from `p` (not a multiple of `PBS`) by
`PBS - p mod PBS` bytes, up to the next multiple of `PBS`. -/
theorem writePadHole_size_unchanged_or_aligned {σ : Type} (f : File σ) (s : σ)
    (targetOff : Int) (hwn : WholeOrNothing f) :
    ∃ r, writePadHole f s targetOff = some r ∧
      (plainSizeOf f r.file = plainSizeOf f s ∨
        ∃ p, plainSizeOf f s = some p ∧ p % f.contentEnc.PlainBS ≠ 0 ∧
          plainSizeOf f r.file = some (p + (f.contentEnc.PlainBS - p % f.contentEnc.PlainBS)) ∧
          (p + (f.contentEnc.PlainBS - p % f.contentEnc.PlainBS)) % f.contentEnc.PlainBS = 0) := by
  cases hstat : f.Stat s with
  | error e => exact ⟨_, writePadHole_stat_error f s targetOff e hstat, Or.inl rfl⟩
  | ok size =>
    by_cases hblk : f.contentEnc.PlainOffToBlockNo (uint64 targetOff) ≤
        f.contentEnc.PlainOffToBlockNo (f.contentEnc.CipherSizeToPlainSize (uint64 size))
    · exact ⟨_, writePadHole_near f s targetOff size hstat hblk, Or.inl rfl⟩
    · by_cases hal : f.contentEnc.CipherSizeToPlainSize (uint64 size) % f.contentEnc.PlainBS = 0
      · exact ⟨_, writePadHole_far_aligned f s targetOff size hstat hblk hal, Or.inl rfl⟩
      · refine ⟨_, writePadHole_far_unaligned f s targetOff size hstat hblk hal, ?_⟩
        have hbs : 0 < f.contentEnc.PlainBS :=
          Nat.pos_of_ne_zero (plainBS_ne_zero_of_block_lt _ _ _ hblk)
        have hp := plainSizeOf_ok f s size hstat
        rcases hwn s _ (List.replicate (f.contentEnc.PlainBS -
          f.contentEnc.CipherSizeToPlainSize (uint64 size) % f.contentEnc.PlainBS) 0) hp with h | h
        · left
          rw [hp]
          exact h
        · right
          rw [List.length_replicate] at h
          exact ⟨_, hp, hal, h, add_pad_mod _ _ hbs⟩

/-- Scenario S4 on the well-behaved file. -/
theorem writePadHole_size_unchanged_or_aligned_witness :
    WholeOrNothing (memFile ce0) ∧
    ∃ r, writePadHole (memFile ce0) 150 5000 = some r ∧
      (plainSizeOf (memFile ce0) r.file = plainSizeOf (memFile ce0) 150 ∨
        ∃ p, plainSizeOf (memFile ce0) 150 = some p ∧ p % (memFile ce0).contentEnc.PlainBS ≠ 0 ∧
          plainSizeOf (memFile ce0) r.file =
            some (p + ((memFile ce0).contentEnc.PlainBS - p % (memFile ce0).contentEnc.PlainBS)) ∧
          (p + ((memFile ce0).contentEnc.PlainBS - p % (memFile ce0).contentEnc.PlainBS)) %
            (memFile ce0).contentEnc.PlainBS = 0) :=
  ⟨memFile_wholeOrNothing ce0 (by decide),
   writePadHole_size_unchanged_or_aligned (memFile ce0) 150 5000
     (memFile_wholeOrNothing ce0 (by decide))⟩

/-- C9, a block-aligned file needs no pad: `zeroPad(plainSize)` with a positive
block size and `plainSize mod PBS = 0` returns `OK` without calling `doWrite`;
and when the size inquiry succeeds, `plainSize mod PBS = 0` and the block of
`targetOff` is past the block of `plainSize`, `writePadHole` returns `OK`,
issues no nested write and leaves the file as it was. -/
theorem block_aligned_needs_no_pad {σ : Type} (f : File σ) (s : σ) :
    (∀ plainSize : Nat, 0 < f.contentEnc.PlainBS → plainSize % f.contentEnc.PlainBS = 0 →
      zeroPad f s plainSize = some ⟨OK, [], s⟩) ∧
    (∀ targetOff size : Int, f.Stat s = .ok size →
      f.contentEnc.CipherSizeToPlainSize (uint64 size) % f.contentEnc.PlainBS = 0 →
      f.contentEnc.PlainOffToBlockNo (f.contentEnc.CipherSizeToPlainSize (uint64 size)) <
        f.contentEnc.PlainOffToBlockNo (uint64 targetOff) →
      writePadHole f s targetOff = some ⟨OK, [], s⟩) :=
  ⟨fun plainSize hbs hal => zeroPad_aligned f s plainSize (Nat.pos_iff_ne_zero.mp hbs) hal,
   fun targetOff size hstat hal hblk =>
    writePadHole_far_aligned f s targetOff size hstat (Nat.not_le.mpr hblk) hal⟩

/-- Scenarios S2 (empty file, `targetOff = 10000`) and S5 (`plainSize = 4096`,
ciphertext size 4146, `targetOff = 10000`): the size is unchanged. -/
theorem block_aligned_needs_no_pad_witness :
    zeroPad (memFile ce0) 4146 4096 = some ⟨OK, [], 4146⟩ ∧
    writePadHole (memFile ce0) 0 10000 = some ⟨OK, [], 0⟩ ∧
    writePadHole (memFile ce0) 4146 10000 = some ⟨OK, [], 4146⟩ :=
  ⟨(block_aligned_needs_no_pad (memFile ce0) 4146).1 4096 (by decide) (by decide),
   (block_aligned_needs_no_pad (memFile ce0) 0).2 10000 0 rfl (by decide) (by decide),
   (block_aligned_needs_no_pad (memFile ce0) 4146).2 10000 4146 rfl (by decide) (by decide)⟩

/-- C10, delegation on Linux: when `runtime.GOOS` is `"linux"`, `SeekData`
issues exactly one `syscall.Seek`, on the descriptor `f.intFd()` with offset
`oldOffset` and whence `3`, and returns the offset and the error of that call
unchanged; no Size Mapper function is applied to either. -/
theorem SeekData_linux_delegates {σ : Type} (rt : Runtime σ) (f : File σ) (s : σ)
    (oldOffset : Int) (hos : rt.GOOS = "linux") :
    SeekData rt f s oldOffset =
      ⟨(rt.Seek s f.intFd oldOffset 3).1.1, (rt.Seek s f.intFd oldOffset 3).1.2,
        [⟨f.intFd, oldOffset, 3⟩], (rt.Seek s f.intFd oldOffset 3).2⟩ := by
  unfold SeekData
  rw [if_neg (not_not.mpr hos)]
  rfl

/-- On a Linux host `SeekData(7)` on a 150-byte file returns 7, and
`SeekData(150)` returns the host error of seeking at the end of the file. -/
theorem SeekData_linux_delegates_witness :
    SeekData linuxRuntime (memFile ce0) 150 7 = ⟨7, none, [⟨3, 7, 3⟩], 150⟩ ∧
    SeekData linuxRuntime (memFile ce0) 150 150 = ⟨-1, some 6, [⟨3, 150, 3⟩], 150⟩ :=
  ⟨SeekData_linux_delegates linuxRuntime (memFile ce0) 150 7 rfl,
   SeekData_linux_delegates linuxRuntime (memFile ce0) 150 150 rfl⟩

end fusefrontend
